import Mathlib

/-!
Verification development for the secure-cookie codec and secret-rotation
subsystem of the jjeffery/sessions Go repository.

The Go source is shallowly embedded:

* bytes are lists of naturals below 256;
* instants are integers counting nanoseconds since the Unix epoch
  (mirroring the resolution of Go timestamps); unix seconds are obtained
  by floor division by 10^9, which is what Go returns for normalised
  timestamps;
* the cryptographic primitives (the SHA-256 digest, and the XSalsa20
  keystream and Poly1305 tag inside NaCl secretbox) are replaced by
  executable deterministic models that keep the primitives' functional
  interface (digest length, key/nonce/length discipline, seal/open
  round-trip, tag checking).  HMAC, HKDF (RFC 5869) and base64url are
  implemented structurally over those models, following the layout of the
  Go libraries that the source calls;
* randomness (nonce, fresh keying material) and the clock are passed as
  explicit arguments, mirroring the randReadFunc/timeNowFunc seams of the
  source.
-/

/-- Bytes are modelled as lists of naturals; well-formed bytes are below 256. -/
abbrev Bytes := List Nat

/-- Big-endian interpretation of a byte list, as used by
binary.BigEndian.Uint64. -/
def fromBytesBE (l : Bytes) : Nat := l.foldl (fun a b => a * 256 + b) 0

/-- Big-endian encoding of a natural into a fixed number of bytes, as used by
binary.BigEndian.PutUint64. -/
def toBytesBE : Nat → Nat → Bytes
  | 0, _ => []
  | k+1, n => toBytesBE k (n / 256) ++ [n % 256]

theorem toBytesBE_length (k n : Nat) : (toBytesBE k n).length = k := by
  induction k generalizing n with
  | zero => rfl
  | succ k ih => simp [toBytesBE, ih]

theorem toBytesBE_lt (k n : Nat) : ∀ b ∈ toBytesBE k n, b < 256 := by
  induction k generalizing n with
  | zero => simp [toBytesBE]
  | succ k ih =>
    intro b hb
    simp only [toBytesBE, List.mem_append, List.mem_singleton] at hb
    rcases hb with hb | hb
    · exact ih _ b hb
    · subst hb; exact Nat.mod_lt _ (by norm_num)

theorem fromBytesBE_append_singleton (l : Bytes) (b : Nat) :
    fromBytesBE (l ++ [b]) = fromBytesBE l * 256 + b := by
  simp [fromBytesBE, List.foldl_append]

theorem fromBytesBE_toBytesBE (k n : Nat) :
    fromBytesBE (toBytesBE k n) = n % 256 ^ k := by
  induction k generalizing n with
  | zero => simp [toBytesBE, fromBytesBE, Nat.mod_one]
  | succ k ih =>
    rw [toBytesBE, fromBytesBE_append_singleton, ih, pow_succ', Nat.mod_mul]
    ring

/-- Conversion of a signed 64-bit value to its unsigned representative,
modelling the Go conversion uint64(x) for x of type int64. -/
def int64ToUint64 (x : Int) : Nat := (x % (2 ^ 64 : Int)).toNat

/-- Conversion of an unsigned 64-bit value to the signed value with the same
representation, modelling the Go conversion int64(x) for x of type uint64. -/
def uint64ToInt64 (n : Nat) : Int :=
  if n < 2 ^ 63 then (n : Int) else (n : Int) - 2 ^ 64

/-- Deterministic executable stand-in for the SHA-256 digest: 32 output bytes,
every output byte below 256, every input byte influencing the result.  The
development only relies on the digest being a fixed-width deterministic
function, as the claims under verification do not concern cryptographic
hardness. -/
def hashModel (msg : Bytes) : Bytes :=
  let seed : Nat := msg.foldl (fun a b => (a * 65599 + b + 1) % (2 ^ 64)) (msg.length % (2 ^ 64))
  (List.range 32).map (fun i => (seed / (2 ^ (8 * (i % 8))) + 131 * i + seed % 251) % 256)

theorem hashModel_length (msg : Bytes) : (hashModel msg).length = 32 := by
  simp [hashModel]

theorem hashModel_lt (msg : Bytes) : ∀ b ∈ hashModel msg, b < 256 := by
  intro b hb
  simp only [hashModel, List.mem_map, List.mem_range] at hb
  obtain ⟨i, _, hi⟩ := hb
  omega

/-- HMAC key preprocessing: keys longer than the 64-byte SHA-256 block are
hashed, then the key is zero-padded to the block length (RFC 2104). -/
def hmacKeyPad (key : Bytes) : Bytes :=
  let k := if key.length > 64 then hashModel key else key
  k ++ List.replicate (64 - k.length) 0

/-- XOR every byte of a list with a fixed pad byte. -/
def xorPad (l : Bytes) (p : Nat) : Bytes := l.map (fun b => Nat.xor b p)

/-- HMAC over the modelled hash (RFC 2104): H((K xor opad) ++ H((K xor ipad) ++ msg)). -/
def hmac (key msg : Bytes) : Bytes :=
  let k := hmacKeyPad key
  hashModel (xorPad k 92 ++ hashModel (xorPad k 54 ++ msg))

/-- HKDF extract step (RFC 5869): PRK = HMAC(salt, ikm), with an absent salt
replaced by HashLen zero bytes exactly as golang.org/x/crypto/hkdf does. -/
def hkdfExtract (salt ikm : Bytes) : Bytes :=
  hmac (if salt.isEmpty then List.replicate 32 0 else salt) ikm

/-- First output block of the HKDF expand step (RFC 5869):
T(1) = HMAC(PRK, info ++ 0x01).  Reading 32 bytes from the golang.org/x/crypto
hkdf stream with a SHA-256 hash returns exactly T(1). -/
def hkdfExpand32 (prk info : Bytes) : Bytes := hmac prk (info ++ [1])

/-- A 32-byte key drawn from HKDF with the given input keying material, salt
and info, as produced by reading 32 bytes from
hkdf.New(sha256.New, ikm, salt, info). -/
def hkdfSha256 (ikm salt info : Bytes) : Bytes := hkdfExpand32 (hkdfExtract salt ikm) info

/-- Overhead in bytes that NaCl secretbox adds to a sealed message
(the Poly1305 tag). -/
def secretboxOverhead : Nat := 16

/-- Indexed map with an explicit starting index, used to model keystream
application byte by byte. -/
def mapWithIndex (f : Nat → Nat → Nat) : Nat → Bytes → Bytes
  | _, [] => []
  | i, b :: rest => f i b :: mapWithIndex f (i + 1) rest

theorem mapWithIndex_mapWithIndex (f g : Nat → Nat → Nat) (i : Nat) (l : Bytes) :
    mapWithIndex g i (mapWithIndex f i l) = mapWithIndex (fun j b => g j (f j b)) i l := by
  induction l generalizing i with
  | nil => rfl
  | cons b rest ih => simp [mapWithIndex, ih]

theorem mapWithIndex_length (f : Nat → Nat → Nat) (i : Nat) (l : Bytes) :
    (mapWithIndex f i l).length = l.length := by
  induction l generalizing i with
  | nil => rfl
  | cons b rest ih => simp [mapWithIndex, ih]

theorem mapWithIndex_congr (f g : Nat → Nat → Nat) (i : Nat) (l : Bytes)
    (h : ∀ j b, b ∈ l → f j b = g j b) :
    mapWithIndex f i l = mapWithIndex g i l := by
  induction l generalizing i with
  | nil => rfl
  | cons b rest ih =>
    simp only [mapWithIndex, List.cons.injEq]
    exact ⟨h i b (by simp), ih _ (fun j b hb => h j b (by simp [hb]))⟩

theorem mapWithIndex_id (i : Nat) (l : Bytes) :
    mapWithIndex (fun _ b => b) i l = l := by
  induction l generalizing i with
  | nil => rfl
  | cons b rest ih => simp [mapWithIndex, ih]

/-- Model of the keystream byte at position i generated from a key and nonce
(standing in for the XSalsa20 stream used by NaCl secretbox). -/
def keystreamByte (key nonce : Bytes) (i : Nat) : Nat :=
  (hashModel (key ++ nonce ++ toBytesBE 3 i)).headD 0

theorem keystreamByte_lt (key nonce : Bytes) (i : Nat) : keystreamByte key nonce i < 256 := by
  unfold keystreamByte
  rcases h : hashModel (key ++ nonce ++ toBytesBE 3 i) with _ | ⟨b, rest⟩
  · simp
  · exact List.headD_cons .. ▸ hashModel_lt _ b (h ▸ List.mem_cons_self b rest)

/-- Model of the authentication tag of NaCl secretbox (standing in for
Poly1305): 16 bytes determined by key, nonce and message. -/
def boxTag (key nonce msg : Bytes) : Bytes := (hashModel (0 :: (key ++ nonce ++ msg))).take 16

/-- Model of secretbox.Seal with an empty out prefix: the authentication tag
followed by the keystream-encrypted message.  The result is
secretboxOverhead bytes longer than the message, as in NaCl. -/
def sealBox (key nonce msg : Bytes) : Bytes :=
  boxTag key nonce msg ++ mapWithIndex (fun i b => (b + keystreamByte key nonce i) % 256) 0 msg

/-- Model of secretbox.Open with an empty out prefix: reject boxes shorter
than the tag, decrypt, recompute and compare the tag. -/
def openBox (key nonce box : Bytes) : Option Bytes :=
  if box.length < secretboxOverhead then none
  else
    let tag := box.take 16
    let body := box.drop 16
    let msg := mapWithIndex (fun i b => (b + (256 - keystreamByte key nonce i)) % 256) 0 body
    if tag = boxTag key nonce msg then some msg else none

theorem sealBox_length (key nonce msg : Bytes) :
    (sealBox key nonce msg).length = msg.length + secretboxOverhead := by
  have h16 : (boxTag key nonce msg).length = 16 := by
    simp [boxTag, hashModel_length]
  simp [sealBox, mapWithIndex_length, h16, secretboxOverhead]
  omega

theorem openBox_sealBox (key nonce msg : Bytes) (h : ∀ b ∈ msg, b < 256) :
    openBox key nonce (sealBox key nonce msg) = some msg := by
  have h16 : (boxTag key nonce msg).length = 16 := by
    simp [boxTag, hashModel_length]
  have hdrop : (sealBox key nonce msg).drop 16 =
      mapWithIndex (fun i b => (b + keystreamByte key nonce i) % 256) 0 msg := by
    simp [sealBox, List.drop_append_of_le_length, h16]
  have htake : (sealBox key nonce msg).take 16 = boxTag key nonce msg := by
    simp [sealBox, List.take_append_of_le_length, h16]
  have hdec : mapWithIndex (fun i b => (b + (256 - keystreamByte key nonce i)) % 256) 0
      (mapWithIndex (fun i b => (b + keystreamByte key nonce i) % 256) 0 msg) = msg := by
    rw [mapWithIndex_mapWithIndex]
    rw [mapWithIndex_congr _ (fun _ b => b) _ _ ?_, mapWithIndex_id]
    intro j b hb
    have hks := keystreamByte_lt key nonce j
    have hblt := h b hb
    show ((b + keystreamByte key nonce j) % 256 + (256 - keystreamByte key nonce j)) % 256 = b
    omega
  have hlen : ¬ (sealBox key nonce msg).length < secretboxOverhead := by
    rw [sealBox_length]; omega
  rw [openBox, if_neg hlen]
  simp only [htake, hdrop, hdec, if_pos rfl, if_true]

/-- ASCII code of the character that the base64url alphabet assigns to a
6-bit value (A-Z, a-z, 0-9, minus, underscore). -/
def b64Char (n : Nat) : Nat :=
  if n < 26 then 65 + n
  else if n < 52 then 97 + (n - 26)
  else if n < 62 then 48 + (n - 52)
  else if n = 62 then 45
  else 95

/-- Inverse of the base64url alphabet: the 6-bit value of an ASCII code, or
none when the character is not in the alphabet. -/
def b64Val (c : Nat) : Option Nat :=
  if 65 ≤ c ∧ c ≤ 90 then some (c - 65)
  else if 97 ≤ c ∧ c ≤ 122 then some (c - 97 + 26)
  else if 48 ≤ c ∧ c ≤ 57 then some (c - 48 + 52)
  else if c = 45 then some 62
  else if c = 95 then some 63
  else none

/-- Base64url encoding without padding, as produced by Go
base64.RawURLEncoding.EncodeToString: 3-byte groups become 4 characters, a
trailing 2-byte group 3 characters and a trailing single byte 2 characters. -/
def base64urlEncode : Bytes → Bytes
  | [] => []
  | [b0] => [b64Char (b0 / 4), b64Char (b0 % 4 * 16)]
  | [b0, b1] => [b64Char (b0 / 4), b64Char (b0 % 4 * 16 + b1 / 16), b64Char (b1 % 16 * 4)]
  | b0 :: b1 :: b2 :: rest =>
      b64Char (b0 / 4) :: b64Char (b0 % 4 * 16 + b1 / 16) ::
        b64Char (b1 % 16 * 4 + b2 / 64) :: b64Char (b2 % 64) :: base64urlEncode rest

/-- Base64url decoding without padding, as performed by Go
base64.RawURLEncoding.DecodeString: rejects characters outside the alphabet
and a trailing group of one character; like the default (non-strict) Go
decoder, excess bits in a trailing group are ignored. -/
def base64urlDecode : Bytes → Option Bytes
  | [] => some []
  | [_] => none
  | [c0, c1] =>
    match b64Val c0, b64Val c1 with
    | some v0, some v1 => some [v0 * 4 + v1 / 16]
    | _, _ => none
  | [c0, c1, c2] =>
    match b64Val c0, b64Val c1, b64Val c2 with
    | some v0, some v1, some v2 => some [v0 * 4 + v1 / 16, v1 % 16 * 16 + v2 / 4]
    | _, _, _ => none
  | c0 :: c1 :: c2 :: c3 :: rest =>
    match b64Val c0, b64Val c1, b64Val c2, b64Val c3, base64urlDecode rest with
    | some v0, some v1, some v2, some v3, some tail =>
        some ((v0 * 4 + v1 / 16) :: (v1 % 16 * 16 + v2 / 4) :: (v2 % 4 * 64 + v3) :: tail)
    | _, _, _, _, _ => none

theorem b64Val_b64Char : ∀ v < 64, b64Val (b64Char v) = some v := by
  decide

theorem base64urlDecode_base64urlEncode (l : Bytes) (h : ∀ b ∈ l, b < 256) :
    base64urlDecode (base64urlEncode l) = some l := by
  induction l using base64urlEncode.induct with
  | case1 => rfl
  | case2 b0 =>
    have h0 : b0 < 256 := h b0 (by simp)
    rw [base64urlEncode, base64urlDecode,
      b64Val_b64Char _ (by omega), b64Val_b64Char _ (by omega)]
    show some [b0 / 4 * 4 + b0 % 4 * 16 / 16] = some [b0]
    have : b0 / 4 * 4 + b0 % 4 * 16 / 16 = b0 := by omega
    rw [this]
  | case3 b0 b1 =>
    have h0 : b0 < 256 := h b0 (by simp)
    have h1 : b1 < 256 := h b1 (by simp)
    rw [base64urlEncode, base64urlDecode, b64Val_b64Char _ (by omega),
      b64Val_b64Char _ (by omega), b64Val_b64Char _ (by omega)]
    show some [b0 / 4 * 4 + (b0 % 4 * 16 + b1 / 16) / 16,
      (b0 % 4 * 16 + b1 / 16) % 16 * 16 + b1 % 16 * 4 / 4] = some [b0, b1]
    have e0 : b0 / 4 * 4 + (b0 % 4 * 16 + b1 / 16) / 16 = b0 := by omega
    have e1 : (b0 % 4 * 16 + b1 / 16) % 16 * 16 + b1 % 16 * 4 / 4 = b1 := by omega
    rw [e0, e1]
  | case4 b0 b1 b2 rest ih =>
    have h0 : b0 < 256 := h b0 (by simp)
    have h1 : b1 < 256 := h b1 (by simp)
    have h2 : b2 < 256 := h b2 (by simp)
    have hrest : ∀ b ∈ rest, b < 256 := fun b hb => h b (by simp [hb])
    rw [base64urlEncode, base64urlDecode, b64Val_b64Char _ (by omega),
      b64Val_b64Char _ (by omega), b64Val_b64Char _ (by omega),
      b64Val_b64Char _ (by omega), ih hrest]
    show some ((b0 / 4 * 4 + (b0 % 4 * 16 + b1 / 16) / 16) ::
        ((b0 % 4 * 16 + b1 / 16) % 16 * 16 + (b1 % 16 * 4 + b2 / 64) / 4) ::
        ((b1 % 16 * 4 + b2 / 64) % 4 * 64 + b2 % 64) :: rest) =
      some (b0 :: b1 :: b2 :: rest)
    have e0 : b0 / 4 * 4 + (b0 % 4 * 16 + b1 / 16) / 16 = b0 := by omega
    have e1 : (b0 % 4 * 16 + b1 / 16) % 16 * 16 + (b1 % 16 * 4 + b2 / 64) / 4 = b1 := by omega
    have e2 : (b1 % 16 * 4 + b2 / 64) % 4 * 64 + b2 % 64 = b2 := by omega
    rw [e0, e1, e2]

/-- Nanoseconds per second; Go durations and Go instants both count
nanoseconds. -/
def nsPerSec : Int := 1000000000

/-- DefaultMaxAge of the codec package: 30 days, in nanoseconds. -/
def DefaultMaxAge : Int := 30 * 24 * 3600 * nsPerSec

/-- MinimumRotationPeriod of the codec package: 15 minutes, in nanoseconds. -/
def MinimumRotationPeriod : Int := 15 * 60 * nsPerSec

/-- MinimumRotationPeriod expressed in whole seconds, the value
int64(MinimumRotationPeriod.Seconds()) computed inside rotate. -/
def minimumRotationPeriodSecs : Int := 900

/-- Unix seconds of an instant given in nanoseconds (Go Time.Unix); Go
normalises timestamps so this is floor division. -/
def unixSeconds (t : Int) : Int := t / nsPerSec

/-- Model of the Go Serializer interface used for cookie values.  Serialize
is total here: the claims under verification quantify over serializable
values, and a Serialize failure aborts Encode before any other effect.
Deserialize returns none when the serializer rejects the bytes. -/
structure Serializer (α : Type) where
  serialize : α → Bytes
  deserialize : Bytes → Option α

/-- The naclCodec of the source: keying material, a serializer and a maximum
age (a duration in nanoseconds, zero when the field is unset). -/
structure NaclCodec (α : Type) where
  keyingMaterial : Bytes
  serializer : Serializer α
  maxAge : Int := 0

/-- Outcome of naclCodec.Decode.  The err cases are the decodeError values of
the source (in order: invalid cookie characters, cookie has been cut,
invalid cookie, cookie expired), errDeserialize is the error returned by
Serializer.Deserialize, and panicShortMessage marks the run-time panic Go
would hit in binary.BigEndian.Uint64 when an authenticated message is
shorter than 8 bytes. -/
inductive DecodeOutcome (α : Type) where
  | ok (value : α)
  | errInvalidChars
  | errCut
  | errInvalidCookie
  | errExpired
  | errDeserialize
  | panicShortMessage
deriving DecidableEq

/-- naclCodec.Encode: serialize the value, prepend the 8-byte big-endian unix
timestamp, derive the per-cookie key with HKDF-SHA256 over the keying
material and the cookie name, seal with secretbox under a random nonce and
base64url-encode nonce plus box.  The nonce and the clock are explicit
arguments, standing for the randReadFunc and timeNowFunc seams. -/
def NaclCodec.encode {α : Type} (sc : NaclCodec α) (name : Bytes) (value : α)
    (nonce : Bytes) (now : Int) : Bytes :=
  let serialized := sc.serializer.serialize value
  let message := toBytesBE 8 (int64ToUint64 (unixSeconds now)) ++ serialized
  let key := hkdfSha256 sc.keyingMaterial name []
  base64urlEncode (nonce ++ sealBox key nonce message)

/-- naclCodec.Decode: base64url-decode, reject inputs of at most
24+secretboxOverhead bytes, split nonce and box, derive the per-cookie key
exactly as Encode does, open the box, read the leading timestamp, reject
when timestamp plus the (defaulted) maximum age lies before now, and
deserialize the remaining bytes. -/
def NaclCodec.decode {α : Type} (sc : NaclCodec α) (name : Bytes) (value : Bytes)
    (now : Int) : DecodeOutcome α :=
  match base64urlDecode value with
  | none => .errInvalidChars
  | some sealed =>
    if sealed.length ≤ 24 + secretboxOverhead then .errCut
    else
      let nonce := sealed.take 24
      let box := sealed.drop 24
      let key := hkdfSha256 sc.keyingMaterial name []
      match openBox key nonce box with
      | none => .errInvalidCookie
      | some message =>
        if message.length < 8 then .panicShortMessage
        else
          let unixTimestamp := uint64ToInt64 (fromBytesBE (message.take 8))
          let rest := message.drop 8
          let maxAge := if sc.maxAge ≤ 0 then DefaultMaxAge else sc.maxAge
          if unixTimestamp * nsPerSec + maxAge < now then .errExpired
          else
            match sc.serializer.deserialize rest with
            | none => .errDeserialize
            | some v => .ok v

/-- A secret of the keyring (secretT of the source): 32 bytes of keying
material and the unix second from which the secret may encode. -/
structure SecretT where
  keyingMaterial : Bytes
  startAt : Int
deriving DecidableEq

/-- The keyring (secretsT of the source): most recent secret first. -/
structure SecretsT where
  secrets : List SecretT
deriving DecidableEq

/-- Trim step of secretsT.rotate: walk the list from newest to oldest, find
the first secret with startAt before the cutoff, keep it, and drop
everything after it; report whether the list shrank. -/
def trimSecrets (before : Int) (l : List SecretT) : List SecretT × Bool :=
  match l.findIdx? (fun s => decide (s.startAt < before)) with
  | some i => if i + 1 < l.length then (l.take (i + 1), true) else (l, false)
  | none => (l, false)

/-- Decision of secretsT.rotate whether a fresh secret is required: yes when
the list is empty, else when the newest secret started before
now minus the rotation period. -/
def keyRequiredAfterTrim (nowUnix rpSecs : Int) (l : List SecretT) : Bool :=
  match l with
  | [] => true
  | s :: _ => decide (s.startAt < nowUnix - rpSecs)

/-- secretsT.rotate.  nowUnix is now.Unix(); rpSecs and maxAgeSecs are the
whole-second values int64(rotationPeriod.Seconds()) and
int64(maxAge.Seconds()) that the source computes; newKm stands for the
32 random bytes drawn through randReadFunc.  Returns the new keyring and
the modified flag. -/
def SecretsT.rotate (ss : SecretsT) (nowUnix rpSecs maxAgeSecs : Int)
    (newKm : Bytes) : SecretsT × Bool :=
  let tm := trimSecrets (nowUnix - maxAgeSecs) ss.secrets
  if keyRequiredAfterTrim nowUnix rpSecs tm.1 then
    let startAt := if tm.1.isEmpty then nowUnix else nowUnix + minimumRotationPeriodSecs
    (⟨{ keyingMaterial := newKm, startAt := startAt } :: tm.1⟩, true)
  else
    (⟨tm.1⟩, tm.2)

/-- Configuration fields of the Codec that determine the rotation policy
(durations in nanoseconds, zero meaning unset). -/
structure Codec where
  maxAgeField : Int := 0
  rotationPeriodField : Int := 0
  secretID : String := ""

/-- Codec.maxAge: the MaxAge field, defaulting to DefaultMaxAge when zero or
negative. -/
def Codec.maxAge (c : Codec) : Int :=
  if c.maxAgeField ≤ 0 then DefaultMaxAge else c.maxAgeField

/-- Codec.rotationPeriod: the RotationPeriod field, defaulting to the
effective maxAge when zero or negative, then raised to
MinimumRotationPeriod when below it. -/
def Codec.rotationPeriod (c : Codec) : Int :=
  let rp := if c.rotationPeriodField ≤ 0 then c.maxAge else c.rotationPeriodField
  if rp < MinimumRotationPeriod then MinimumRotationPeriod else rp

/-- Format tag under which the keyring is persisted (gobFormat of the
source). -/
def gobFormat : String := "gob"

/-- storage.Record: the persisted envelope.  Since gob encoding is not
re-implemented here, the data payload carries the marshalled secrets list
directly; expires counts nanoseconds like every other instant. -/
structure Record where
  id : String
  version : Int
  expires : Int
  format : String
  data : List SecretT
deriving DecidableEq

/-- State of the memory-backed storage provider: an association list from id
to record, standing for the Go map. -/
abbrev MemState := List (String × Record)

/-- Store a record under a key, replacing the first existing binding. -/
def mapSet : MemState → String → Record → MemState
  | [], k, v => [(k, v)]
  | (k0, v0) :: rest, k, v =>
    if k0 = k then (k, v) :: rest else (k0, v0) :: mapSet rest k v

/-- Remove every binding of a key, modelling Go map deletion. -/
def mapDel (m : MemState) (k : String) : MemState :=
  m.filter (fun p => decide (p.1 ≠ k))

/-- Outcome of memory.Provider.Save: success, storage.ErrVersionConflict, or
the explicit panic the provider raises on a non-positive record version. -/
inductive MemSaveOutcome where
  | ok
  | versionConflict
  | panicInvalidVersion
deriving DecidableEq

/-- memory.Provider.Fetch: look the record up and treat an expired record as
absent, deleting it on the way. -/
def memFetch (m : MemState) (now : Int) (id : String) : Option Record × MemState :=
  match List.lookup id m with
  | none => (none, m)
  | some rec => if rec.expires < now then (none, mapDel m id) else (some rec, m)

/-- memory.Provider.Save: panic on a non-positive version of the record to be
saved (when a version check was requested), insert-only semantics for
oldVersion = 0, compare-and-swap semantics for oldVersion > 0, and an
unconditional upsert for negative oldVersion.  The state is returned
unchanged in every non-ok outcome. -/
def memSave (m : MemState) (rec : Record) (oldVersion : Int) : MemSaveOutcome × MemState :=
  if 0 ≤ oldVersion ∧ rec.version ≤ 0 then (.panicInvalidVersion, m)
  else if oldVersion = 0 then
    match List.lookup rec.id m with
    | some _ => (.versionConflict, m)
    | none => (.ok, mapSet m rec.id rec)
  else if 0 < oldVersion then
    match List.lookup rec.id m with
    | none => (.versionConflict, m)
    | some existing =>
      if existing.version ≠ oldVersion then (.versionConflict, m)
      else (.ok, mapSet m rec.id rec)
  else (.ok, mapSet m rec.id rec)

/-- memory.Provider.Delete: remove the binding; never an error. -/
def memDelete (m : MemState) (id : String) : MemState := mapDel m id

/-- Errors surfacing from the refresh cycle.  versionConflict stands for
storage.ErrVersionConflict, unsupportedFormat for the unmarshal error on an
unknown format tag, storage for any other provider error (abstracted by a
code), and panicNilRecord marks the nil dereference Go would hit if the
re-fetch after a conflict found no record. -/
inductive ProvError where
  | versionConflict
  | unsupportedFormat (f : String)
  | storage (code : Nat)
  | panicNilRecord
deriving DecidableEq

/-- A storage provider as seen by the refresh cycle: fetch and save, both
explicit state transformers, so that a save may report a version conflict
caused by a concurrent peer. -/
structure ProviderModel (σ : Type) where
  fetch : String → σ → Except ProvError (Option Record) × σ
  save : Record → Int → σ → Except ProvError Unit × σ

/-- Provider operations recorded by the refresh cycle, newest last. -/
inductive ProvOp where
  | fetchOp (id : String)
  | saveOp (rec : Record) (expectVersion : Int)
deriving DecidableEq

/-- The storage key under which the keyring is persisted: the SecretID field,
defaulting to "secret" when blank. -/
def Codec.effectiveSecretID (c : Codec) : String :=
  if c.secretID = "" then "secret" else c.secretID

/-- Version of the previously fetched record, 0 when the record was absent. -/
def recOptVersion : Option Record → Int
  | none => 0
  | some r => r.version

/-- Keyring held in the previously fetched record, empty when the record was
absent (the unmarshal target starts out as the zero value in Go). -/
def recOptSecrets : Option Record → SecretsT
  | none => SecretsT.mk []
  | some r => SecretsT.mk r.data

/-- The envelope fetchSecrets saves after a rotation that modified the
keyring: same id, version bumped by one over the previously fetched
version, expiry four rotation periods out, gob format, the rotated
secrets. -/
def savedRecord (c : Codec) (now : Int) (recOpt : Option Record) (rotated : SecretsT) : Record :=
  Record.mk c.effectiveSecretID (recOptVersion recOpt + 1) (now + c.rotationPeriod * 4)
    gobFormat rotated.secrets

/-- Continuation of Codec.fetchSecrets after the fetched record has been
unmarshalled (split out so the theorems can address the rotation and
conflict handling directly): rotate, and if rotation modified the keyring
save it under the previously fetched version (0 when the record was
absent) with the record version bumped by one; a version conflict on save
is resolved by re-fetching and adopting the persisted keyring verbatim,
without running rotate again and without retrying the save. -/
def Codec.fetchSecretsAfterUnmarshal {σ : Type} (c : Codec) (db : ProviderModel σ)
    (now : Int) (newKm : Bytes) (recOpt : Option Record)
    (cb : SecretsT) (s1 : σ) : Except ProvError (SecretsT × σ × List ProvOp) :=
  let rm := cb.rotate (unixSeconds now) (c.rotationPeriod / nsPerSec)
    (c.maxAge / nsPerSec) newKm
  if rm.2 then
    let oldVersion := recOptVersion recOpt
    let rec1 : Record := savedRecord c now recOpt rm.1
    match db.save rec1 oldVersion s1 with
    | (.ok _, s2) =>
      .ok (rm.1, s2, [.fetchOp c.effectiveSecretID, .saveOp rec1 oldVersion])
    | (.error .versionConflict, s2) =>
      match db.fetch c.effectiveSecretID s2 with
      | (.error e, _) => .error e
      | (.ok none, _) => .error .panicNilRecord
      | (.ok (some rec2), s3) =>
        if rec2.format = gobFormat then
          .ok (⟨rec2.data⟩, s3,
            [.fetchOp c.effectiveSecretID, .saveOp rec1 oldVersion,
             .fetchOp c.effectiveSecretID])
        else .error (.unsupportedFormat rec2.format)
    | (.error e, _) => .error e
  else
    .ok (rm.1, s1, [.fetchOp c.effectiveSecretID])

/-- Codec.fetchSecrets: fetch the persisted keyring (an absent record giving
the empty keyring), unmarshal it (rejecting unknown format tags) and run
the rotation and conditional save of fetchSecretsAfterUnmarshal.  Returns
the resulting keyring, the final provider state and the trace of provider
operations.  The nil-DB guard of the source is outside this model (a
provider is always supplied), and newKm stands for the random keying
material drawn if a secret is minted. -/
def Codec.fetchSecrets {σ : Type} (c : Codec) (db : ProviderModel σ) (now : Int)
    (newKm : Bytes) (s : σ) : Except ProvError (SecretsT × σ × List ProvOp) :=
  match db.fetch c.effectiveSecretID s with
  | (.error e, _) => .error e
  | (.ok recOpt, s1) =>
    match recOpt with
    | some rec =>
      if rec.format = gobFormat then
        Codec.fetchSecretsAfterUnmarshal c db now newKm (some rec) ⟨rec.data⟩ s1
      else .error (.unsupportedFormat rec.format)
    | none => Codec.fetchSecretsAfterUnmarshal c db now newKm none ⟨[]⟩ s1

theorem trimSecrets_eq_take (before : Int) (l : List SecretT) (i : Nat)
    (h : l.findIdx? (fun s => decide (s.startAt < before)) = some i) :
    (trimSecrets before l).1 = l.take (i + 1) := by
  simp only [trimSecrets, h]
  split
  · rfl
  · show l = List.take (i + 1) l
    exact (List.take_of_length_le (by omega)).symm

theorem trimSecrets_eq_of_none (before : Int) (l : List SecretT)
    (h : l.findIdx? (fun s => decide (s.startAt < before)) = none) :
    (trimSecrets before l).1 = l := by
  simp only [trimSecrets, h]

theorem trimSecrets_prefix (before : Int) (l : List SecretT) :
    ∃ k, (trimSecrets before l).1 = l.take k := by
  cases h : l.findIdx? (fun s => decide (s.startAt < before)) with
  | none => exact ⟨l.length, by rw [trimSecrets_eq_of_none before l h, List.take_length]⟩
  | some i => exact ⟨i + 1, trimSecrets_eq_take before l i h⟩

theorem trimSecrets_ne_nil (before : Int) (l : List SecretT) (h : l ≠ []) :
    (trimSecrets before l).1 ≠ [] := by
  cases hf : l.findIdx? (fun s => decide (s.startAt < before)) with
  | none => rw [trimSecrets_eq_of_none before l hf]; exact h
  | some i =>
    rw [trimSecrets_eq_take before l i hf]
    simp [List.take_eq_nil_iff, h]

theorem trimSecrets_not_modified (before : Int) (l : List SecretT)
    (h : (trimSecrets before l).2 = false) : (trimSecrets before l).1 = l := by
  unfold trimSecrets at *
  cases hf : l.findIdx? (fun s => decide (s.startAt < before)) with
  | none => simp only [hf]
  | some i =>
    simp only [hf] at h ⊢
    by_cases hlen : i + 1 < l.length
    · simp only [if_pos hlen] at h
      exact Bool.noConfusion h
    · simp only [if_neg hlen]

theorem trimSecrets_modified_shorter (before : Int) (l : List SecretT)
    (h : (trimSecrets before l).2 = true) : (trimSecrets before l).1.length < l.length := by
  unfold trimSecrets at *
  cases hf : l.findIdx? (fun s => decide (s.startAt < before)) with
  | none => simp only [hf] at h; exact Bool.noConfusion h
  | some i =>
    simp only [hf] at h ⊢
    by_cases hlen : i + 1 < l.length
    · simp only [if_pos hlen]
      show (List.take (i + 1) l).length < l.length
      rw [List.length_take]
      omega
    · simp only [if_neg hlen] at h
      exact Bool.noConfusion h

theorem trimSecrets_head (before : Int) (l : List SecretT) (h : l ≠ []) :
    (trimSecrets before l).1.head? = l.head? := by
  obtain ⟨k, hk⟩ := trimSecrets_prefix before l
  have hne := trimSecrets_ne_nil before l h
  rw [hk] at hne ⊢
  rcases l with _ | ⟨a, tl⟩
  · exact absurd rfl h
  · rcases k with _ | k
    · simp at hne
    · simp [List.take_succ_cons]

theorem keyRequiredAfterTrim_nil (nowUnix rpSecs : Int) :
    keyRequiredAfterTrim nowUnix rpSecs [] = true := rfl

theorem keyRequiredAfterTrim_cons (nowUnix rpSecs : Int) (s : SecretT) (rest : List SecretT) :
    keyRequiredAfterTrim nowUnix rpSecs (s :: rest) = decide (s.startAt < nowUnix - rpSecs) := rfl

theorem rotate_secrets_ne_nil (ss : SecretsT) (nowUnix rpSecs maxAgeSecs : Int) (newKm : Bytes) :
    ((ss.rotate nowUnix rpSecs maxAgeSecs newKm).1).secrets ≠ [] := by
  unfold SecretsT.rotate
  cases hk : keyRequiredAfterTrim nowUnix rpSecs (trimSecrets (nowUnix - maxAgeSecs) ss.secrets).1 with
  | true => simp [hk]
  | false =>
    simp only [hk, Bool.false_eq_true, if_false]
    intro hnil
    cases h : (trimSecrets (nowUnix - maxAgeSecs) ss.secrets).1 with
    | nil => rw [h, keyRequiredAfterTrim_nil] at hk; exact Bool.noConfusion hk
    | cons s rest => rw [h] at hnil; exact List.noConfusion hnil

/-- C5: for a keyring sorted newest-first and a nonnegative rotation period,
rotate trims by keeping everything up to and including the first secret
whose startAt lies before now minus maxAge (dropping all older entries),
trims nothing when no secret lies before the cutoff, leaves a non-empty
list non-empty, and afterwards the keyring has at least one secret with
startAt values non-increasing. -/
theorem rotate_trim_invariants (l : List SecretT) (nowUnix rpSecs maxAgeSecs : Int)
    (newKm : Bytes)
    (hsorted : List.Pairwise (fun a b => b.startAt ≤ a.startAt) l) (hrp : 0 ≤ rpSecs) :
    (∀ i, l.findIdx? (fun s => decide (s.startAt < nowUnix - maxAgeSecs)) = some i →
        (trimSecrets (nowUnix - maxAgeSecs) l).1 = l.take (i + 1))
    ∧ (l.findIdx? (fun s => decide (s.startAt < nowUnix - maxAgeSecs)) = none →
        (trimSecrets (nowUnix - maxAgeSecs) l).1 = l)
    ∧ (l ≠ [] → (trimSecrets (nowUnix - maxAgeSecs) l).1 ≠ [])
    ∧ 1 ≤ ((SecretsT.rotate ⟨l⟩ nowUnix rpSecs maxAgeSecs newKm).1).secrets.length
    ∧ List.Pairwise (fun a b => b.startAt ≤ a.startAt)
        ((SecretsT.rotate ⟨l⟩ nowUnix rpSecs maxAgeSecs newKm).1).secrets := by
  refine ⟨fun i h => trimSecrets_eq_take _ l i h, fun h => trimSecrets_eq_of_none _ l h,
    fun h => trimSecrets_ne_nil _ l h, ?_, ?_⟩
  · have hne := rotate_secrets_ne_nil ⟨l⟩ nowUnix rpSecs maxAgeSecs newKm
    cases h : ((SecretsT.rotate ⟨l⟩ nowUnix rpSecs maxAgeSecs newKm).1).secrets with
    | nil => exact absurd h hne
    | cons s rest => simp
  · have htr : List.Pairwise (fun a b => b.startAt ≤ a.startAt)
        (trimSecrets (nowUnix - maxAgeSecs) l).1 := by
      obtain ⟨k, hk⟩ := trimSecrets_prefix (nowUnix - maxAgeSecs) l
      rw [hk]
      exact hsorted.sublist (List.take_sublist k l)
    show List.Pairwise (fun a b => b.startAt ≤ a.startAt)
      ((SecretsT.rotate ⟨l⟩ nowUnix rpSecs maxAgeSecs newKm).1).secrets
    unfold SecretsT.rotate
    cases htl : (trimSecrets (nowUnix - maxAgeSecs) (SecretsT.mk l).secrets).1 with
    | nil =>
      simp only [htl, keyRequiredAfterTrim_nil, if_true, List.isEmpty_nil]
      simp
    | cons s rest =>
      have htr2 : List.Pairwise (fun a b => b.startAt ≤ a.startAt) (s :: rest) := htl ▸ htr
      cases hkr : keyRequiredAfterTrim nowUnix rpSecs (s :: rest) with
      | false =>
        simp only [htl, hkr, Bool.false_eq_true, if_false]
        exact htr2
      | true =>
        simp only [htl, hkr, if_true, List.isEmpty_cons]
        rw [keyRequiredAfterTrim_cons] at hkr
        have hs : s.startAt < nowUnix - rpSecs := of_decide_eq_true hkr
        rw [List.pairwise_cons]
        have hrest := (List.pairwise_cons.mp htr2).1
        have h900 : (0:Int) ≤ minimumRotationPeriodSecs := by decide
        refine ⟨?_, htr2⟩
        intro a ha
        rcases List.mem_cons.mp ha with rfl | ha
        · simp only
          omega
        · have := hrest a ha
          simp only
          omega

/-- Witness for the C5 theorem on a concrete two-secret keyring where the
older secret falls behind the cutoff. -/
theorem rotate_trim_invariants_witness :
    (trimSecrets (1000 - 200) [SecretT.mk [1] 950, SecretT.mk [2] 700, SecretT.mk [3] 600]).1 =
      [SecretT.mk [1] 950, SecretT.mk [2] 700]
    ∧ 1 ≤ ((SecretsT.rotate ⟨[SecretT.mk [1] 950, SecretT.mk [2] 700, SecretT.mk [3] 600]⟩
        1000 100 200 [9]).1).secrets.length := by
  have h := rotate_trim_invariants [SecretT.mk [1] 950, SecretT.mk [2] 700, SecretT.mk [3] 600]
    1000 100 200 [9] (by decide) (by decide)
  exact ⟨h.1 1 (by decide), h.2.2.2.1⟩

theorem rotate_modified_false (l : List SecretT) (nowUnix rpSecs maxAgeSecs : Int) (newKm : Bytes)
    (h : (SecretsT.rotate ⟨l⟩ nowUnix rpSecs maxAgeSecs newKm).2 = false) :
    (SecretsT.rotate ⟨l⟩ nowUnix rpSecs maxAgeSecs newKm).1.secrets = l := by
  cases hkr : keyRequiredAfterTrim nowUnix rpSecs (trimSecrets (nowUnix - maxAgeSecs) l).1 with
  | true =>
    have h2 := h
    simp [SecretsT.rotate, hkr] at h2
  | false =>
    have h1 : (SecretsT.rotate ⟨l⟩ nowUnix rpSecs maxAgeSecs newKm).1.secrets =
        (trimSecrets (nowUnix - maxAgeSecs) l).1 := by
      simp [SecretsT.rotate, hkr]
    have h2 := h
    simp [SecretsT.rotate, hkr] at h2
    rw [h1]
    exact trimSecrets_not_modified _ l h2

/-- C6: when the rotation period is nonnegative, rotate prepends exactly one
fresh secret precisely when the trimmed list is empty or its head started
before now minus the rotation period; the fresh secret starts at now for
an empty list and at now plus the 15-minute minimum rotation period
otherwise; no secret is added in the remaining case; and the modified flag
is reported exactly when the resulting list differs from the input. -/
theorem rotate_minting (l : List SecretT) (nowUnix rpSecs maxAgeSecs : Int) (newKm : Bytes)
    (hrp : 0 ≤ rpSecs) :
    ((trimSecrets (nowUnix - maxAgeSecs) l).1 = [] →
        (SecretsT.rotate ⟨l⟩ nowUnix rpSecs maxAgeSecs newKm).1.secrets = [SecretT.mk newKm nowUnix]
        ∧ (SecretsT.rotate ⟨l⟩ nowUnix rpSecs maxAgeSecs newKm).2 = true)
    ∧ (∀ s rest, (trimSecrets (nowUnix - maxAgeSecs) l).1 = s :: rest →
        s.startAt < nowUnix - rpSecs →
          (SecretsT.rotate ⟨l⟩ nowUnix rpSecs maxAgeSecs newKm).1.secrets =
            SecretT.mk newKm (nowUnix + minimumRotationPeriodSecs) :: s :: rest
          ∧ (SecretsT.rotate ⟨l⟩ nowUnix rpSecs maxAgeSecs newKm).2 = true)
    ∧ (∀ s rest, (trimSecrets (nowUnix - maxAgeSecs) l).1 = s :: rest →
        ¬ s.startAt < nowUnix - rpSecs →
          (SecretsT.rotate ⟨l⟩ nowUnix rpSecs maxAgeSecs newKm).1.secrets = s :: rest
          ∧ (SecretsT.rotate ⟨l⟩ nowUnix rpSecs maxAgeSecs newKm).2 =
            (trimSecrets (nowUnix - maxAgeSecs) l).2)
    ∧ ((SecretsT.rotate ⟨l⟩ nowUnix rpSecs maxAgeSecs newKm).2 = true ↔
        (SecretsT.rotate ⟨l⟩ nowUnix rpSecs maxAgeSecs newKm).1.secrets ≠ l) := by
  refine ⟨?_, ?_, ?_, ?_⟩
  · intro h
    simp [SecretsT.rotate, h, keyRequiredAfterTrim_nil]
  · intro s rest h hs
    have hkr : keyRequiredAfterTrim nowUnix rpSecs (s :: rest) = true := by
      rw [keyRequiredAfterTrim_cons]
      exact decide_eq_true hs
    simp [SecretsT.rotate, h, hkr]
  · intro s rest h hs
    have hkr : keyRequiredAfterTrim nowUnix rpSecs (s :: rest) = false := by
      rw [keyRequiredAfterTrim_cons]
      exact decide_eq_false hs
    simp [SecretsT.rotate, h, hkr]
  · constructor
    · intro htrue heq
      cases hkr : keyRequiredAfterTrim nowUnix rpSecs (trimSecrets (nowUnix - maxAgeSecs) l).1 with
      | false =>
        have h1 : (SecretsT.rotate ⟨l⟩ nowUnix rpSecs maxAgeSecs newKm).1.secrets =
            (trimSecrets (nowUnix - maxAgeSecs) l).1 := by
          simp [SecretsT.rotate, hkr]
        have h2 : (trimSecrets (nowUnix - maxAgeSecs) l).2 = true := by
          have hcopy := htrue
          simp only [SecretsT.rotate, hkr, Bool.false_eq_true, if_false] at hcopy
          exact hcopy
        have hsh := trimSecrets_modified_shorter _ l h2
        rw [← h1, heq] at hsh
        omega
      | true =>
        cases htl : (trimSecrets (nowUnix - maxAgeSecs) l).1 with
        | nil =>
          have hl : l = [] := by
            by_contra hne
            exact trimSecrets_ne_nil _ l hne htl
          have hr1 : (SecretsT.rotate ⟨l⟩ nowUnix rpSecs maxAgeSecs newKm).1.secrets =
              [SecretT.mk newKm nowUnix] := by
            simp [SecretsT.rotate, htl, keyRequiredAfterTrim_nil]
          rw [hr1, hl] at heq
          exact List.noConfusion heq
        | cons s rest =>
          have hkr2 : keyRequiredAfterTrim nowUnix rpSecs (s :: rest) = true := htl ▸ hkr
          have hs : s.startAt < nowUnix - rpSecs := by
            rw [keyRequiredAfterTrim_cons] at hkr2
            exact of_decide_eq_true hkr2
          have hr1 : (SecretsT.rotate ⟨l⟩ nowUnix rpSecs maxAgeSecs newKm).1.secrets =
              SecretT.mk newKm (nowUnix + minimumRotationPeriodSecs) :: s :: rest := by
            simp [SecretsT.rotate, htl, hkr2]
          rw [hr1] at heq
          have hlne : l ≠ [] := by
            intro h0
            rw [h0] at heq
            exact List.noConfusion heq
          have hhead := trimSecrets_head (nowUnix - maxAgeSecs) l hlne
          rw [htl, ← heq] at hhead
          simp only [List.head?_cons, Option.some.injEq] at hhead
          have hsa : s.startAt = nowUnix + minimumRotationPeriodSecs := by rw [hhead]
          have h900 : (0:Int) ≤ minimumRotationPeriodSecs := by decide
          omega
    · intro hneq
      by_contra hfalse
      exact hneq (rotate_modified_false l nowUnix rpSecs maxAgeSecs newKm
        (Bool.eq_false_iff.mpr hfalse))

/-- Witness for the C6 theorem: rotating a keyring whose only secret is stale
mints a future-dated secret and reports the keyring as modified. -/
theorem rotate_minting_witness :
    (SecretsT.rotate ⟨[SecretT.mk [5] 10]⟩ 2000 100 5000 [7]).1.secrets =
      SecretT.mk [7] (2000 + minimumRotationPeriodSecs) :: SecretT.mk [5] 10 :: []
    ∧ (SecretsT.rotate ⟨[SecretT.mk [5] 10]⟩ 2000 100 5000 [7]).2 = true :=
  (rotate_minting [SecretT.mk [5] 10] 2000 100 5000 [7] (by decide)).2.1
    (SecretT.mk [5] 10) [] (by decide) (by decide)

theorem mapDel_idem (m : MemState) (id : String) :
    mapDel (mapDel m id) id = mapDel m id := by
  unfold mapDel
  induction m with
  | nil => rfl
  | cons p rest ih =>
    by_cases hp : p.1 = id
    · simp [hp, ih]
    · simp [hp, ih]

theorem mapDel_of_lookup_none (m : MemState) (id : String)
    (h : List.lookup id m = none) : mapDel m id = m := by
  unfold mapDel
  induction m with
  | nil => rfl
  | cons p rest ih =>
    rcases p with ⟨k, v⟩
    rw [List.lookup_cons] at h
    by_cases hp : k = id
    · rw [hp] at h
      simp at h
    · have hkd : (id == k) = false := by
        simp [BEq.symm_false]
        exact fun he => hp he.symm
      rw [hkd] at h
      simp only [List.filter_cons]
      have : decide ((k, v).1 ≠ id) = true := by simp [hp]
      rw [this, ih h]
      simp

/-- C9: CAS laws of the in-memory reference provider, for records satisfying
the documented storage contract (a positive version).  Save with
expectVersion 0 conflicts and leaves the state unchanged whenever the id is
present; Save with a positive expectVersion conflicts and leaves the state
unchanged when the id is absent or the stored version differs, and stores
the record otherwise; Delete is idempotent and is a no-op (not an error)
when the record is absent. -/
theorem memSave_cas_laws (m : MemState) (rec : Record) (k : Int) (id : String)
    (hv : 0 < rec.version) :
    ((List.lookup rec.id m).isSome → memSave m rec 0 = (.versionConflict, m))
    ∧ (0 < k → List.lookup rec.id m = none → memSave m rec k = (.versionConflict, m))
    ∧ (0 < k → ∀ ex, List.lookup rec.id m = some ex → ex.version ≠ k →
        memSave m rec k = (.versionConflict, m))
    ∧ (0 < k → ∀ ex, List.lookup rec.id m = some ex → ex.version = k →
        memSave m rec k = (.ok, mapSet m rec.id rec))
    ∧ memDelete (memDelete m id) id = memDelete m id
    ∧ (List.lookup id m = none → memDelete m id = m) := by
  have hpanic0 : ¬((0:Int) ≤ 0 ∧ rec.version ≤ 0) := by omega
  refine ⟨?_, ?_, ?_, ?_, mapDel_idem m id, fun h => mapDel_of_lookup_none m id h⟩
  · intro hs
    obtain ⟨ex, hex⟩ := Option.isSome_iff_exists.mp hs
    simp [memSave, hex, hpanic0, hv]
  · intro hk hnone
    have hpanic : ¬(0 ≤ k ∧ rec.version ≤ 0) := by omega
    have hk0 : ¬(k = 0) := by omega
    simp [memSave, hnone, hpanic, hk0, hk, hv]
  · intro hk ex hex hne
    have hpanic : ¬(0 ≤ k ∧ rec.version ≤ 0) := by omega
    have hk0 : ¬(k = 0) := by omega
    simp [memSave, hex, hpanic, hk0, hk, hne, hv]
  · intro hk ex hex heq
    have hpanic : ¬(0 ≤ k ∧ rec.version ≤ 0) := by omega
    have hk0 : ¬(k = 0) := by omega
    simp [memSave, hex, hpanic, hk0, hk, heq, hv]

/-- Witness for the C9 theorem: inserting over an existing id with
expectVersion 0 conflicts, and deleting an absent id twice equals deleting
it once. -/
theorem memSave_cas_laws_witness :
    memSave [("secret", Record.mk "secret" 3 0 "gob" [])]
        (Record.mk "secret" 4 0 "gob" []) 0 =
      (.versionConflict, [("secret", Record.mk "secret" 3 0 "gob" [])])
    ∧ memDelete (memDelete [("secret", Record.mk "secret" 3 0 "gob" [])] "other") "other" =
        memDelete [("secret", Record.mk "secret" 3 0 "gob" [])] "other" := by
  have h := memSave_cas_laws [("secret", Record.mk "secret" 3 0 "gob" [])]
    (Record.mk "secret" 4 0 "gob" []) 1 "other" (by decide)
  exact ⟨h.1 (by decide), h.2.2.2.2.1⟩

theorem fetchSecretsAfterUnmarshal_nonempty {σ : Type} (c : Codec) (db : ProviderModel σ)
    (now : Int) (newKm : Bytes) (recOpt : Option Record)
    (cb : SecretsT) (s1 : σ)
    (hdb : ∀ id st rec st2, db.fetch id st = (.ok (some rec), st2) → rec.data ≠ []) :
    ∀ out s2 tr, Codec.fetchSecretsAfterUnmarshal c db now newKm recOpt cb s1 =
      .ok (out, s2, tr) → out.secrets ≠ [] := by
  intro out s2 tr h
  simp only [Codec.fetchSecretsAfterUnmarshal] at h
  split at h
  · split at h
    · rcases h with ⟨rfl, rfl, rfl⟩ | _
      · exact rotate_secrets_ne_nil cb _ _ _ newKm
    · split at h
      · exact Except.noConfusion h
      · exact Except.noConfusion h
      · split at h
        · rcases h with ⟨rfl, rfl, rfl⟩ | _
          · exact hdb _ _ _ _ (by assumption)
        · exact Except.noConfusion h
    · exact Except.noConfusion h
  · rcases h with ⟨rfl, rfl, rfl⟩ | _
    · exact rotate_secrets_ne_nil cb _ _ _ newKm

/-- C10: whenever fetchSecrets returns successfully — through the unmodified
path, the save path or the conflict path — the resulting keyring is
non-empty (rotate mints a secret whenever the list is empty, and the
conflict path adopts a peer-persisted record, assumed well-formed in that
every record the provider returns carries a non-empty secrets list, as
peers persist only rotate outputs).  Hence the unguarded indexing of
Secrets[0] in newImmutableCodec, which runs on the returned keyring, is in
bounds. -/
theorem fetchSecrets_secrets_nonempty {σ : Type} (c : Codec) (db : ProviderModel σ)
    (now : Int) (newKm : Bytes) (s : σ)
    (hdb : ∀ id st rec st2, db.fetch id st = (.ok (some rec), st2) → rec.data ≠ []) :
    ∀ cb s2 tr, c.fetchSecrets db now newKm s = .ok (cb, s2, tr) → cb.secrets ≠ [] := by
  intro cb s2 tr h
  simp only [Codec.fetchSecrets] at h
  split at h
  · exact Except.noConfusion h
  · split at h
    · split at h
      · exact fetchSecretsAfterUnmarshal_nonempty c db now newKm _ _ _ hdb cb s2 tr h
      · exact Except.noConfusion h
    · exact fetchSecretsAfterUnmarshal_nonempty c db now newKm _ _ _ hdb cb s2 tr h

/-- Decidable equality for Except results, so that concrete refresh-cycle
runs can be checked by evaluation. -/
instance exceptDecEq {e a : Type} [DecidableEq e] [DecidableEq a] :
    DecidableEq (Except e a) := fun x y =>
  match x, y with
  | .ok v, .ok w =>
    if h : v = w then isTrue (by rw [h]) else isFalse (fun he => h (Except.ok.inj he))
  | .error v, .error w =>
    if h : v = w then isTrue (by rw [h]) else isFalse (fun he => h (Except.error.inj he))
  | .ok _, .error _ => isFalse (fun he => Except.noConfusion he)
  | .error _, .ok _ => isFalse (fun he => Except.noConfusion he)

/-- A storage provider over a trivial state that always reports an absent
record and accepts every save, used to exercise the refresh cycle. -/
def emptyProvider : ProviderModel Unit where
  fetch := fun _ s => (.ok none, s)
  save := fun _ _ s => (.ok (), s)

/-- Witness for the C10 theorem: a first refresh against an empty store
returns the freshly minted one-secret keyring, which is non-empty. -/
theorem fetchSecrets_secrets_nonempty_witness :
    (SecretsT.mk [SecretT.mk [1] 0]).secrets ≠ [] :=
  fetchSecrets_secrets_nonempty (Codec.mk 0 0 "") emptyProvider 0 [1] ()
    (fun id st rec st2 h => by simp [emptyProvider] at h)
    (SecretsT.mk [SecretT.mk [1] 0]) ()
    [ProvOp.fetchOp "secret",
     ProvOp.saveOp (Record.mk "secret" 1 (DefaultMaxAge * 4) gobFormat [SecretT.mk [1] 0]) 0]
    (by decide)

theorem fetchSecretsAfterUnmarshal_no_conflict {σ : Type} (c : Codec) (db : ProviderModel σ)
    (now : Int) (newKm : Bytes) (recOpt : Option Record) (cb : SecretsT) (s1 : σ)
    (hnc : ∀ id st, (db.fetch id st).1 ≠ .error .versionConflict) :
    Codec.fetchSecretsAfterUnmarshal c db now newKm recOpt cb s1 ≠ .error .versionConflict := by
  intro h
  simp only [Codec.fetchSecretsAfterUnmarshal] at h
  split at h
  · split at h
    · exact Except.noConfusion h
    · split at h
      · rename_i e s4 heq
        have he := Except.error.inj h
        subst he
        exact hnc c.effectiveSecretID _ (by rw [heq])
      · exact ProvError.noConfusion (Except.error.inj h)
      · split at h
        · exact Except.noConfusion h
        · exact ProvError.noConfusion (Except.error.inj h)
    · rename_i hdisc heq
      exact hdisc (Except.error.inj h)
  · exact Except.noConfusion h

/-- C7: in a refresh cycle whose rotation modified the keyring, the save is
issued with expectVersion equal to the previously fetched version (0 when
the record was absent) and a record whose version is that value plus one
(stated by the saveOp in the trace and by the savedRecord equation); when
that save reports a version conflict, fetchSecrets re-fetches, adopts the
persisted keyring verbatim — without running rotate again and without a
second save, as the trace with exactly one saveOp shows — and returns it;
and a version conflict never propagates to the caller (given that Fetch
itself never fails with a version conflict, which no provider does). -/
theorem fetchSecrets_conflict_accepts_persisted {σ : Type} (c : Codec) (db : ProviderModel σ)
    (now : Int) (newKm : Bytes) (s s1 s2 s3 : σ) (recOpt : Option Record) (rec2 : Record)
    (hfetch1 : db.fetch c.effectiveSecretID s = (.ok recOpt, s1))
    (hfmt1 : ∀ rec, recOpt = some rec → rec.format = gobFormat)
    (hmod : ((recOptSecrets recOpt).rotate (unixSeconds now) (c.rotationPeriod / nsPerSec)
        (c.maxAge / nsPerSec) newKm).2 = true)
    (hsave : db.save (savedRecord c now recOpt
        ((recOptSecrets recOpt).rotate (unixSeconds now) (c.rotationPeriod / nsPerSec)
          (c.maxAge / nsPerSec) newKm).1) (recOptVersion recOpt) s1 =
        (.error .versionConflict, s2))
    (hfetch2 : db.fetch c.effectiveSecretID s2 = (.ok (some rec2), s3))
    (hfmt2 : rec2.format = gobFormat)
    (hnc : ∀ id st, (db.fetch id st).1 ≠ .error .versionConflict) :
    c.fetchSecrets db now newKm s =
      .ok (SecretsT.mk rec2.data, s3,
        [ProvOp.fetchOp c.effectiveSecretID,
         ProvOp.saveOp (savedRecord c now recOpt
           ((recOptSecrets recOpt).rotate (unixSeconds now) (c.rotationPeriod / nsPerSec)
             (c.maxAge / nsPerSec) newKm).1) (recOptVersion recOpt),
         ProvOp.fetchOp c.effectiveSecretID])
    ∧ (savedRecord c now recOpt ((recOptSecrets recOpt).rotate (unixSeconds now)
        (c.rotationPeriod / nsPerSec) (c.maxAge / nsPerSec) newKm).1).version =
        recOptVersion recOpt + 1
    ∧ (∀ st, c.fetchSecrets db now newKm st ≠ .error .versionConflict) := by
  refine ⟨?_, rfl, ?_⟩
  · cases recOpt with
    | none =>
      have hmod2 : (((⟨[]⟩ : SecretsT)).rotate (unixSeconds now) (c.rotationPeriod / nsPerSec)
          (c.maxAge / nsPerSec) newKm).2 = true := hmod
      have hsave2 : db.save (savedRecord c now none
          ((⟨[]⟩ : SecretsT).rotate (unixSeconds now) (c.rotationPeriod / nsPerSec)
            (c.maxAge / nsPerSec) newKm).1) (recOptVersion none) s1 =
          (.error .versionConflict, s2) := hsave
      simp only [Codec.fetchSecrets, hfetch1, Codec.fetchSecretsAfterUnmarshal, hmod2,
        if_true, hsave2, hfetch2, hfmt2]
      rfl
    | some rec =>
      have hmod2 : (((⟨rec.data⟩ : SecretsT)).rotate (unixSeconds now) (c.rotationPeriod / nsPerSec)
          (c.maxAge / nsPerSec) newKm).2 = true := hmod
      have hsave2 : db.save (savedRecord c now (some rec)
          ((⟨rec.data⟩ : SecretsT).rotate (unixSeconds now) (c.rotationPeriod / nsPerSec)
            (c.maxAge / nsPerSec) newKm).1) (recOptVersion (some rec)) s1 =
          (.error .versionConflict, s2) := hsave
      simp only [Codec.fetchSecrets, hfetch1, hfmt1 rec rfl, if_true,
        Codec.fetchSecretsAfterUnmarshal, hmod2, hsave2, hfetch2, hfmt2]
      rfl
  · intro st
    simp only [Codec.fetchSecrets]
    split
    · rename_i e snd heq
      intro hx
      have he := Except.error.inj hx
      subst he
      exact hnc c.effectiveSecretID st (by rw [heq])
    · split
      · split
        · exact fetchSecretsAfterUnmarshal_no_conflict c db now newKm _ _ _ hnc
        · intro hx
          exact ProvError.noConfusion (Except.error.inj hx)
      · exact fetchSecretsAfterUnmarshal_no_conflict c db now newKm _ _ _ hnc

/-- A record as a concurrent peer would persist it. -/
def peerRecord : Record := Record.mk "secret" 2 0 gobFormat [SecretT.mk [3] 5]

/-- A storage provider over a fetch-counting state that reports an absent
record on the first fetch, the peer record afterwards, and answers every
save with a version conflict — the behaviour seen by the loser of a
concurrent rotation race. -/
def conflictProvider : ProviderModel Nat where
  fetch := fun _ n => if n = 0 then (.ok none, 1) else (.ok (some peerRecord), n)
  save := fun _ _ n => (.error .versionConflict, n)

/-- Witness for the C7 theorem: against conflictProvider, the refresh cycle
ends with the peer keyring, a trace holding exactly one save (expecting
version 0 and writing version 1), and no version-conflict error. -/
theorem fetchSecrets_conflict_accepts_persisted_witness :
    Codec.fetchSecrets (Codec.mk 0 0 "") conflictProvider 0 [1] 0 =
      .ok (SecretsT.mk peerRecord.data, 1,
        [ProvOp.fetchOp (Codec.mk 0 0 "").effectiveSecretID,
         ProvOp.saveOp (savedRecord (Codec.mk 0 0 "") 0 none
           ((recOptSecrets none).rotate (unixSeconds 0)
             ((Codec.mk 0 0 "").rotationPeriod / nsPerSec)
             ((Codec.mk 0 0 "").maxAge / nsPerSec) [1]).1) (recOptVersion none),
         ProvOp.fetchOp (Codec.mk 0 0 "").effectiveSecretID])
    ∧ Codec.fetchSecrets (Codec.mk 0 0 "") conflictProvider 0 [1] 7 ≠
        .error .versionConflict := by
  have h := fetchSecrets_conflict_accepts_persisted (Codec.mk 0 0 "") conflictProvider
    0 [1] 0 1 1 1 none peerRecord rfl
    (fun rec hr => Option.noConfusion hr) (by decide) rfl rfl rfl
    (by intro id st; by_cases hz : st = 0 <;> simp [conflictProvider, hz])
  exact ⟨h.1, h.2.2 7⟩

theorem mapWithIndex_forall (f : Nat → Nat → Nat) (P : Nat → Prop) (i : Nat) (l : Bytes)
    (h : ∀ j x, P (f j x)) : ∀ b ∈ mapWithIndex f i l, P b := by
  induction l generalizing i with
  | nil => intro b hb; exact absurd hb (by simp [mapWithIndex])
  | cons x rest ih =>
    intro b hb
    rcases List.mem_cons.mp (by simpa [mapWithIndex] using hb) with rfl | hb
    · exact h i x
    · exact ih (i + 1) b hb

theorem sealBox_lt (key nonce msg : Bytes) : ∀ b ∈ sealBox key nonce msg, b < 256 := by
  intro b hb
  unfold sealBox at hb
  rcases List.mem_append.mp hb with hb | hb
  · exact hashModel_lt _ b (List.mem_of_mem_take hb)
  · exact mapWithIndex_forall _ (fun b => b < 256) 0 msg
      (fun j x => Nat.mod_lt _ (by norm_num)) b hb

theorem int64ToUint64_lt (x : Int) : int64ToUint64 x < 2 ^ 64 := by
  unfold int64ToUint64
  have h0 : (0:Int) ≤ x % (2 ^ 64 : Int) := Int.emod_nonneg x (by norm_num)
  have h1 : x % (2 ^ 64 : Int) < 2 ^ 64 := Int.emod_lt_of_pos x (by norm_num)
  omega

theorem uint64ToInt64_int64ToUint64 (x : Int) (h0 : -(2 ^ 63) ≤ x) (h1 : x < 2 ^ 63) :
    uint64ToInt64 (int64ToUint64 x) = x := by
  unfold uint64ToInt64 int64ToUint64
  have hm0 : (0:Int) ≤ x % (2 ^ 64 : Int) := Int.emod_nonneg x (by norm_num)
  have hm1 : x % (2 ^ 64 : Int) < 2 ^ 64 := Int.emod_lt_of_pos x (by norm_num)
  split <;> omega

theorem unixSeconds_mul_le (t : Int) : unixSeconds t * nsPerSec ≤ t := by
  unfold unixSeconds nsPerSec
  omega

theorem decode_encode_reduces {α : Type} (sc : NaclCodec α) (name : Bytes) (v : α)
    (nonce : Bytes) (t now : Int)
    (hn24 : nonce.length = 24) (hnb : ∀ b ∈ nonce, b < 256)
    (hs : ∀ b ∈ sc.serializer.serialize v, b < 256)
    (ht0 : -(2 ^ 63) ≤ unixSeconds t) (ht1 : unixSeconds t < 2 ^ 63) :
    sc.decode name (sc.encode name v nonce t) now =
      (if unixSeconds t * nsPerSec + (if sc.maxAge ≤ 0 then DefaultMaxAge else sc.maxAge) < now
       then .errExpired
       else
         match sc.serializer.deserialize (sc.serializer.serialize v) with
         | none => .errDeserialize
         | some w => .ok w) := by
  have hmsglt : ∀ b ∈ toBytesBE 8 (int64ToUint64 (unixSeconds t)) ++
      sc.serializer.serialize v, b < 256 := by
    intro b hb
    rcases List.mem_append.mp hb with hb | hb
    · exact toBytesBE_lt _ _ b hb
    · exact hs b hb
  have hsealedlt : ∀ b ∈ nonce ++ sealBox (hkdfSha256 sc.keyingMaterial name []) nonce
      (toBytesBE 8 (int64ToUint64 (unixSeconds t)) ++ sc.serializer.serialize v), b < 256 := by
    intro b hb
    rcases List.mem_append.mp hb with hb | hb
    · exact hnb b hb
    · exact sealBox_lt _ _ _ b hb
  have hb64 := base64urlDecode_base64urlEncode _ hsealedlt
  have hlen : ¬((nonce ++ sealBox (hkdfSha256 sc.keyingMaterial name []) nonce
      (toBytesBE 8 (int64ToUint64 (unixSeconds t)) ++ sc.serializer.serialize v)).length ≤
      24 + secretboxOverhead) := by
    rw [List.length_append, hn24, sealBox_length, List.length_append, toBytesBE_length]
    unfold secretboxOverhead
    omega
  have htake : (nonce ++ sealBox (hkdfSha256 sc.keyingMaterial name []) nonce
      (toBytesBE 8 (int64ToUint64 (unixSeconds t)) ++ sc.serializer.serialize v)).take 24 =
      nonce := by
    exact List.take_left' hn24
  have hdrop : (nonce ++ sealBox (hkdfSha256 sc.keyingMaterial name []) nonce
      (toBytesBE 8 (int64ToUint64 (unixSeconds t)) ++ sc.serializer.serialize v)).drop 24 =
      sealBox (hkdfSha256 sc.keyingMaterial name []) nonce
        (toBytesBE 8 (int64ToUint64 (unixSeconds t)) ++ sc.serializer.serialize v) := by
    exact List.drop_left' hn24
  have hopen := openBox_sealBox (hkdfSha256 sc.keyingMaterial name []) nonce
    (toBytesBE 8 (int64ToUint64 (unixSeconds t)) ++ sc.serializer.serialize v) hmsglt
  have hmsgtake : (toBytesBE 8 (int64ToUint64 (unixSeconds t)) ++
      sc.serializer.serialize v).take 8 = toBytesBE 8 (int64ToUint64 (unixSeconds t)) := by
    exact List.take_left' (toBytesBE_length 8 (int64ToUint64 (unixSeconds t)))
  have hmsgdrop : (toBytesBE 8 (int64ToUint64 (unixSeconds t)) ++
      sc.serializer.serialize v).drop 8 = sc.serializer.serialize v := by
    exact List.drop_left' (toBytesBE_length 8 (int64ToUint64 (unixSeconds t)))
  have hmsglen : ¬((toBytesBE 8 (int64ToUint64 (unixSeconds t)) ++
      sc.serializer.serialize v).length < 8) := by
    rw [List.length_append, toBytesBE_length]
    omega
  have hts : uint64ToInt64 (fromBytesBE (toBytesBE 8 (int64ToUint64 (unixSeconds t)))) =
      unixSeconds t := by
    rw [fromBytesBE_toBytesBE,
      Nat.mod_eq_of_lt (by have := int64ToUint64_lt (unixSeconds t); norm_num; omega)]
    exact uint64ToInt64_int64ToUint64 _ ht0 ht1
  simp only [NaclCodec.encode, NaclCodec.decode, hb64, hlen, if_false, htake, hdrop, hopen,
    hmsglen, hmsgtake, hmsgdrop, hts]

/-- Identity serializer on raw byte lists, used for concrete evaluations. -/
def bytesSerializer : Serializer Bytes where
  serialize := fun l => l
  deserialize := fun l => some l

set_option maxRecDepth 40000 in
/-- Claim C1 as stated is refuted by timestamp truncation: Encode stores the
timestamp in whole seconds, so with t = 0.9s, maxAge = 100s and delay
99.95s (strictly below maxAge) the decode-time check compares 100s against
100.85s and reports the cookie expired instead of returning the value. -/
theorem decode_encode_round_trip_cex :
    (0:Int) ≤ 99950000000 ∧ (99950000000 : Int) < 100 * nsPerSec ∧
    NaclCodec.decode (NaclCodec.mk (List.replicate 32 7) bytesSerializer (100 * nsPerSec)) [65]
      (NaclCodec.encode (NaclCodec.mk (List.replicate 32 7) bytesSerializer (100 * nsPerSec))
        [65] [42] (List.replicate 24 0) 900000000)
      (900000000 + 99950000000) = .errExpired := by
  refine ⟨by norm_num, by norm_num [nsPerSec], ?_⟩
  decide

/-- C1 (amended): with the same keying material and a well-formed nonce,
Decode at time t + d of a cookie encoded at time t returns exactly the
encoded value for every delay 0 ≤ d with t + d ≤ ts + maxAge, where ts is
t truncated to whole seconds (the granularity at which Encode stores the
timestamp) and maxAge is the codec maximum age (30 days when unset). -/
theorem decode_encode_round_trip {α : Type} (sc : NaclCodec α) (name : Bytes) (v : α)
    (nonce : Bytes) (t d : Int)
    (hn24 : nonce.length = 24) (hnb : ∀ b ∈ nonce, b < 256)
    (hs : ∀ b ∈ sc.serializer.serialize v, b < 256)
    (ht0 : -(2 ^ 63) ≤ unixSeconds t) (ht1 : unixSeconds t < 2 ^ 63)
    (hround : sc.serializer.deserialize (sc.serializer.serialize v) = some v)
    (hd0 : 0 ≤ d)
    (hd1 : t + d ≤ unixSeconds t * nsPerSec +
      (if sc.maxAge ≤ 0 then DefaultMaxAge else sc.maxAge)) :
    sc.decode name (sc.encode name v nonce t) (t + d) = .ok v := by
  rw [decode_encode_reduces sc name v nonce t (t + d) hn24 hnb hs ht0 ht1,
    if_neg (by omega), hround]

/-- Witness for the amended C1 theorem at concrete inputs. -/
theorem decode_encode_round_trip_witness :
    NaclCodec.decode (NaclCodec.mk (List.replicate 32 7) bytesSerializer 0) [65]
      (NaclCodec.encode (NaclCodec.mk (List.replicate 32 7) bytesSerializer 0) [65] [1, 2]
        (List.replicate 24 5) (10 * nsPerSec)) (10 * nsPerSec + 0) = .ok [1, 2] :=
  decode_encode_round_trip (NaclCodec.mk (List.replicate 32 7) bytesSerializer 0) [65] [1, 2]
    (List.replicate 24 5) (10 * nsPerSec) 0 (by decide) (by decide) (by decide)
    (by decide) (by decide) rfl (by decide) (by decide)

set_option maxRecDepth 40000 in
/-- Claim C2 as stated is refuted by timestamp truncation: with t = 1.5s,
maxAge = 50s and now = 51.3s — strictly before t + maxAge = 51.5s — Decode
reports the cookie expired, because the stored timestamp was truncated to
1s and 1s + 50s lies before 51.3s. -/
theorem decode_encode_expiry_cex :
    (51300000000 : Int) < 1500000000 + 50 * nsPerSec ∧
    NaclCodec.decode (NaclCodec.mk (List.replicate 32 7) bytesSerializer (50 * nsPerSec)) [66]
      (NaclCodec.encode (NaclCodec.mk (List.replicate 32 7) bytesSerializer (50 * nsPerSec))
        [66] [9] (List.replicate 24 1) 1500000000)
      51300000000 = .errExpired := by
  refine ⟨by norm_num [nsPerSec], ?_⟩
  decide

/-- C2 (amended): for a codec whose MaxAge field is a positive duration
maxAge, Decode of a cookie encoded at time t succeeds (returning the
value) at every time up to and including ts + maxAge, where ts is t
truncated to whole seconds as stored by Encode, and fails with the
Expired decode error at every later time — in particular at every time
after t + maxAge, as the claim states. -/
theorem decode_encode_expiry {α : Type} (sc : NaclCodec α) (name : Bytes) (v : α)
    (nonce : Bytes) (t now : Int)
    (hn24 : nonce.length = 24) (hnb : ∀ b ∈ nonce, b < 256)
    (hs : ∀ b ∈ sc.serializer.serialize v, b < 256)
    (ht0 : -(2 ^ 63) ≤ unixSeconds t) (ht1 : unixSeconds t < 2 ^ 63)
    (hround : sc.serializer.deserialize (sc.serializer.serialize v) = some v)
    (hma : 0 < sc.maxAge) :
    (now ≤ unixSeconds t * nsPerSec + sc.maxAge →
      sc.decode name (sc.encode name v nonce t) now = .ok v)
    ∧ (unixSeconds t * nsPerSec + sc.maxAge < now →
      sc.decode name (sc.encode name v nonce t) now = .errExpired)
    ∧ (t + sc.maxAge < now →
      sc.decode name (sc.encode name v nonce t) now = .errExpired) := by
  have hred := decode_encode_reduces sc name v nonce t now hn24 hnb hs ht0 ht1
  rw [if_neg (by omega : ¬ sc.maxAge ≤ 0)] at hred
  refine ⟨fun h => ?_, fun h => ?_, fun h => ?_⟩
  · rw [hred, if_neg (by omega), hround]
  · rw [hred, if_pos h]
  · have hle := unixSeconds_mul_le t
    rw [hred, if_pos (by omega)]

/-- Witness for the amended C2 theorem: the same cookie decodes successfully
one nanosecond before its truncated deadline and reports Expired one
nanosecond after it. -/
theorem decode_encode_expiry_witness :
    NaclCodec.decode (NaclCodec.mk (List.replicate 32 7) bytesSerializer (60 * nsPerSec)) [67]
      (NaclCodec.encode (NaclCodec.mk (List.replicate 32 7) bytesSerializer (60 * nsPerSec))
        [67] [4] (List.replicate 24 2) (3 * nsPerSec)) (63 * nsPerSec) = .ok [4]
    ∧ NaclCodec.decode (NaclCodec.mk (List.replicate 32 7) bytesSerializer (60 * nsPerSec)) [67]
      (NaclCodec.encode (NaclCodec.mk (List.replicate 32 7) bytesSerializer (60 * nsPerSec))
        [67] [4] (List.replicate 24 2) (3 * nsPerSec)) (63 * nsPerSec + 1) = .errExpired := by
  have h := decode_encode_expiry (NaclCodec.mk (List.replicate 32 7) bytesSerializer
      (60 * nsPerSec)) [67] [4] (List.replicate 24 2) (3 * nsPerSec) (63 * nsPerSec)
    (by decide) (by decide) (by decide) (by decide) (by decide) rfl (by decide)
  have h2 := decode_encode_expiry (NaclCodec.mk (List.replicate 32 7) bytesSerializer
      (60 * nsPerSec)) [67] [4] (List.replicate 24 2) (3 * nsPerSec) (63 * nsPerSec + 1)
    (by decide) (by decide) (by decide) (by decide) (by decide) rfl (by decide)
  exact ⟨h.1 (by decide), h2.2.1 (by decide)⟩

set_option maxRecDepth 40000 in
/-- Claim C4 as stated is refuted: the source rejects only inputs of at most
40 decoded bytes (24-byte nonce plus 16-byte tag), not inputs shorter than
48 bytes.  A 44-byte decoded input passes the length check and reaches
authenticated decryption, which rejects it as an invalid cookie (the
authentication-failure error), not as malformed input. -/
theorem decode_rejects_short_inputs_cex :
    base64urlDecode (base64urlEncode (List.replicate 44 0)) = some (List.replicate 44 0)
    ∧ (List.replicate 44 (0:Nat)).length < 48
    ∧ NaclCodec.decode (NaclCodec.mk (List.replicate 32 7) bytesSerializer 0) [65]
        (base64urlEncode (List.replicate 44 0)) 0 = .errInvalidCookie := by
  refine ⟨by decide, by decide, ?_⟩
  decide

/-- C4 (amended): Decode returns the invalid-characters decode error whenever
base64url decoding fails, and the cookie-has-been-cut decode error
whenever the decoded input has at most 24 + 16 = 40 bytes; both are
issued before any authenticated-decryption attempt. -/
theorem decode_rejects_short_inputs {α : Type} (sc : NaclCodec α) (name input : Bytes)
    (now : Int) :
    (base64urlDecode input = none → sc.decode name input now = .errInvalidChars)
    ∧ (∀ bs, base64urlDecode input = some bs → bs.length ≤ 24 + secretboxOverhead →
        sc.decode name input now = .errCut) := by
  constructor
  · intro h
    simp [NaclCodec.decode, h]
  · intro bs h hlen
    simp [NaclCodec.decode, h, hlen]

set_option maxRecDepth 40000 in
/-- Witness for the amended C4 theorem: an input with characters outside the
base64url alphabet is rejected as invalid cookie characters, and a
10-byte decoded input is rejected as cut. -/
theorem decode_rejects_short_inputs_witness :
    (NaclCodec.decode (NaclCodec.mk (List.replicate 32 7) bytesSerializer 0) [65] [33, 33] 0 =
      .errInvalidChars)
    ∧ NaclCodec.decode (NaclCodec.mk (List.replicate 32 7) bytesSerializer 0) [65]
        (base64urlEncode (List.replicate 10 0)) 0 = .errCut :=
  ⟨(decode_rejects_short_inputs (NaclCodec.mk (List.replicate 32 7) bytesSerializer 0)
      [65] [33, 33] 0).1 (by decide),
   (decode_rejects_short_inputs (NaclCodec.mk (List.replicate 32 7) bytesSerializer 0)
      [65] (base64urlEncode (List.replicate 10 0)) 0).2 (List.replicate 10 0)
      (by decide) (by decide)⟩

set_option maxRecDepth 40000 in
/-- Claim C3 as stated is refuted: the source passes the cookie name as the
SALT of HKDF-SHA256 and leaves the info empty (hkdf.New(hash, secret,
salt, info) is called with salt = name and info = nil), whereas the claim
puts the name in the info with an empty salt.  The two derivations
disagree, and the cookie Encode actually produces is not the one built
with the claimed key. -/
theorem cookie_key_derivation_cex :
    hkdfSha256 (List.replicate 32 7) [65] [] ≠ hkdfSha256 (List.replicate 32 7) [] [65]
    ∧ NaclCodec.encode (NaclCodec.mk (List.replicate 32 7) bytesSerializer 0) [65] [1]
        (List.replicate 24 0) 0 ≠
      base64urlEncode (List.replicate 24 0 ++
        sealBox (hkdfSha256 (List.replicate 32 7) [] [65]) (List.replicate 24 0)
          (toBytesBE 8 (int64ToUint64 (unixSeconds 0)) ++ [1])) := by
  exact ⟨by decide, by decide⟩

/-- C3 (amended): both Encode and Decode derive the 32-byte symmetric key as
HKDF-SHA256 with input keying material the secret keying material, salt
the cookie name N and info empty.  Encode seals exactly with that key, and
for any input that passes the structural checks Decode opens with that
key, its outcome fully determined by that opening. -/
theorem cookie_key_derivation {α : Type} (sc : NaclCodec α) (name : Bytes) (v : α)
    (nonce : Bytes) (t : Int) (input : Bytes) (now : Int) :
    sc.encode name v nonce t =
      base64urlEncode (nonce ++ sealBox (hkdfSha256 sc.keyingMaterial name []) nonce
        (toBytesBE 8 (int64ToUint64 (unixSeconds t)) ++ sc.serializer.serialize v))
    ∧ (∀ bs, base64urlDecode input = some bs → ¬ bs.length ≤ 24 + secretboxOverhead →
        sc.decode name input now =
          match openBox (hkdfSha256 sc.keyingMaterial name []) (bs.take 24) (bs.drop 24) with
          | none => .errInvalidCookie
          | some message =>
            if message.length < 8 then .panicShortMessage
            else if uint64ToInt64 (fromBytesBE (message.take 8)) * nsPerSec +
                (if sc.maxAge ≤ 0 then DefaultMaxAge else sc.maxAge) < now then .errExpired
            else
              match sc.serializer.deserialize (message.drop 8) with
              | none => .errDeserialize
              | some w => .ok w) := by
  constructor
  · rfl
  · intro bs h hlen
    simp only [NaclCodec.decode, h, hlen, if_false]

set_option maxRecDepth 40000 in
/-- Witness for the amended C3 theorem: the concrete cookie equals the sealed
box under the name-as-salt HKDF key, and a concrete well-formed decode is
fully determined by opening with that key. -/
theorem cookie_key_derivation_witness :
    (NaclCodec.encode (NaclCodec.mk (List.replicate 32 7) bytesSerializer 0) [65] [1]
        (List.replicate 24 0) 0 =
      base64urlEncode (List.replicate 24 0 ++
        sealBox (hkdfSha256 (List.replicate 32 7) [65] []) (List.replicate 24 0)
          (toBytesBE 8 (int64ToUint64 (unixSeconds 0)) ++ [1])))
    ∧ NaclCodec.decode (NaclCodec.mk (List.replicate 32 7) bytesSerializer 0) [66]
        (base64urlEncode (List.replicate 44 3)) 5 =
      (match openBox (hkdfSha256 (List.replicate 32 7) [66] []) ((List.replicate 44 3).take 24)
          ((List.replicate 44 3).drop 24) with
      | none => DecodeOutcome.errInvalidCookie
      | some message =>
        if message.length < 8 then DecodeOutcome.panicShortMessage
        else if uint64ToInt64 (fromBytesBE (message.take 8)) * nsPerSec +
            (if (0:Int) ≤ 0 then DefaultMaxAge else 0) < 5 then DecodeOutcome.errExpired
        else
          match bytesSerializer.deserialize (message.drop 8) with
          | none => DecodeOutcome.errDeserialize
          | some w => DecodeOutcome.ok w) :=
  ⟨(cookie_key_derivation (NaclCodec.mk (List.replicate 32 7) bytesSerializer 0) [65] [1]
      (List.replicate 24 0) 0 [] 0).1,
   (cookie_key_derivation (NaclCodec.mk (List.replicate 32 7) bytesSerializer 0) [66] [1]
      (List.replicate 24 0) 0 (base64urlEncode (List.replicate 44 3)) 5).2
      (List.replicate 44 3) (by decide) (by decide)⟩

/-- Claim C8 as stated is refuted here: a Codec with MaxAge of one hour and
RotationPeriod of two hours has an effective rotation period of two hours,
which exceeds the effective maxAge — the source never clamps the rotation
period from above. -/
theorem rotationPeriod_not_clamped_to_maxAge :
    ¬ (Codec.rotationPeriod (Codec.mk (3600 * nsPerSec) (7200 * nsPerSec) "") ≤
       Codec.maxAge (Codec.mk (3600 * nsPerSec) (7200 * nsPerSec) "")) := by
  decide

/-- C8 (amended): the effective rotation period is always at least the
15-minute minimum; a zero or negative RotationPeriod defaults to the
effective maxAge (before the minimum clamp, so the result is the maximum
of the two); a positive RotationPeriod is kept (clamped up to the
minimum); a zero or negative MaxAge defaults to 30 days and a positive
one is kept.  There is no upper clamp at the effective maxAge. -/
theorem rotationPeriod_maxAge_defaults (c : Codec) :
    MinimumRotationPeriod ≤ c.rotationPeriod
    ∧ (c.rotationPeriodField ≤ 0 → c.rotationPeriod = max c.maxAge MinimumRotationPeriod)
    ∧ (0 < c.rotationPeriodField →
        c.rotationPeriod = max c.rotationPeriodField MinimumRotationPeriod)
    ∧ (c.maxAgeField ≤ 0 → c.maxAge = DefaultMaxAge)
    ∧ (0 < c.maxAgeField → c.maxAge = c.maxAgeField) := by
  simp only [Codec.rotationPeriod, Codec.maxAge, MinimumRotationPeriod, DefaultMaxAge, nsPerSec]
  refine ⟨?_, ?_, ?_, ?_, ?_⟩ <;>
    · intros
      split_ifs <;> omega

/-- Witness for the amended C8 theorem at a concrete codec with both fields
unset: the rotation period is the 30-day default maxAge. -/
theorem rotationPeriod_maxAge_defaults_witness :
    Codec.rotationPeriod (Codec.mk 0 0 "") =
      max (Codec.maxAge (Codec.mk 0 0 "")) MinimumRotationPeriod
    ∧ Codec.maxAge (Codec.mk 0 0 "") = DefaultMaxAge :=
  ⟨(rotationPeriod_maxAge_defaults (Codec.mk 0 0 "")).2.1 (by decide),
   (rotationPeriod_maxAge_defaults (Codec.mk 0 0 "")).2.2.2.1 (by decide)⟩
